import Mathlib

/-!
Verification development for the Sisyphus HUD telemetry core: a shallow
embedding of the transcript parser (`src/hud/transcript.ts`, shipped inside
`src/hud/elements/agents.ts`), the usage cache client (`src/hud/usage-api.ts`)
and the statusline entry point (`src/hud/index.ts`).

Times are modelled as `Int` milliseconds since the epoch (the value of
`Date.getTime()`); file contents are `List Char`; JavaScript `Map`s are
association lists in insertion order.  JavaScript truthiness of strings is
modelled by explicit non-emptiness checks.
-/

/-! ## String constants from the source -/

def emptyString : String := ""

def toolUseType : String := "tool_use"

def toolResultType : String := "tool_result"

def taskToolName : String := "Task"

def proxyTaskToolName : String := "proxy_Task"

def todoWriteToolName : String := "TodoWrite"

def skillToolName : String := "Skill"

def proxySkillToolName : String := "proxy_Skill"

def unknownTypeName : String := "unknown"

def asyncLaunchNeedle : String := "Async agent launched"

def agentIdNeedle : String := "agentId:"

def taskIdOpenTag : String := "<task_id>"

def taskIdCloseTag : String := "</task_id>"

def statusOpenTag : String := "<status>"

def statusCloseTag : String := "</status>"

def completedStatusText : String := "completed"

def textPartType : String := "text"

/-! ## Data model (from the TypeScript interfaces) -/

/-- Status of a tracked job; `ActiveAgent.status` in the source is the string
union `'running' | 'completed'`. -/
inductive AgentStatus where
  | running
  | completed
deriving DecidableEq, Repr

/-- `ActiveAgent` from `src/hud/types.ts`, as populated by the parser. -/
structure ActiveAgent where
  id : String
  type : String
  model : Option String := none
  description : Option String := none
  status : AgentStatus
  startTime : Int
  endTime : Option Int := none
deriving DecidableEq, Repr

/-- `TodoItem`: the status union is an unchecked cast in the source, so it is
kept as a plain string. -/
structure TodoItem where
  content : String
  status : String
  activeForm : Option String := none
deriving DecidableEq, Repr

/-- `SkillInvocation` recorded for the last activated skill. -/
structure SkillInvocation where
  name : String
  args : Option String := none
  timestamp : Int
deriving DecidableEq, Repr

/-- One element of an array-valued `tool_result` content. -/
structure TextPart where
  type : Option String := none
  text : Option String := none
deriving DecidableEq, Repr

/-- `string | Array<{type?, text?}>` content of a result block. -/
inductive BlockContent where
  | str (s : String)
  | parts (l : List TextPart)
deriving DecidableEq, Repr

/-- Flattened view of `block.input`, which is untyped (`unknown`) in the
source and cast per tool branch. -/
structure BlockInput where
  subagent_type : Option String := none
  model : Option String := none
  description : Option String := none
  todos : Option (List TodoItem) := none
  skill : Option String := none
  args : Option String := none
deriving DecidableEq, Repr

/-- `ContentBlock` from the transcript-parsing interfaces. -/
structure ContentBlock where
  type : String
  id : Option String := none
  name : Option String := none
  input : Option BlockInput := none
  tool_use_id : Option String := none
  content : Option BlockContent := none
deriving DecidableEq, Repr

/-- `TranscriptEntry`: `message?.content` is flattened to one optional list;
`timestamp` is the parsed time of the entry's timestamp string, `none` when
the field is absent. -/
structure TranscriptEntry where
  timestamp : Option Int := none
  content : Option (List ContentBlock) := none
deriving DecidableEq, Repr

/-! ## Association-list model of JavaScript `Map` (insertion order) -/

/-- Lookup, `Map.get`. -/
def aGet {α : Type} (k : String) : List (String × α) → Option α
  | [] => none
  | p :: rest => if p.1 = k then some p.2 else aGet k rest

/-- Update-in-place or append, `Map.set`. -/
def aSet {α : Type} (k : String) (v : α) : List (String × α) → List (String × α)
  | [] => [(k, v)]
  | p :: rest => if p.1 = k then (k, v) :: rest else p :: aSet k v rest

/-- Remove a key, `Map.delete`. -/
def aDelete {α : Type} (k : String) (m : List (String × α)) : List (String × α) :=
  m.filter (fun p => !(p.1 == k))

/-- Keys in insertion order. -/
def aKeys {α : Type} (m : List (String × α)) : List String :=
  m.map Prod.fst

/-- Map of tracked jobs, `Map<string, ActiveAgent>`. -/
abbrev AgentMap := List (String × ActiveAgent)

/-- Map from background agent tokens to `tool_use_id`s, `BackgroundAgentMap`. -/
abbrev BgMap := List (String × String)

/-! ## Text scanning (the regular expressions of the source) -/

/-- Whitespace as matched by JavaScript `\s` / `trim` (common subset). -/
def jsWhitespaceChar (c : Char) : Bool :=
  c == ' ' || c == '\t' || c == '\n' || c == '\r' || c == '\x0b' || c == '\x0c' || c == ' '

/-- ASCII alphanumeric, the `[a-zA-Z0-9]` character class. -/
def isAlnumChar (c : Char) : Bool :=
  (decide ('a' ≤ c) && decide (c ≤ 'z'))
    || (decide ('A' ≤ c) && decide (c ≤ 'Z'))
    || (decide ('0' ≤ c) && decide (c ≤ '9'))

/-- Substring test on character lists, `String.prototype.includes`. -/
def containsSubList (needle : List Char) : List Char → Bool
  | [] => needle.isEmpty
  | c :: rest => needle.isPrefixOf (c :: rest) || containsSubList needle rest

/-- Substring test on strings. -/
def strIncludes (needle hay : String) : Bool :=
  containsSubList needle.toList hay.toList

/-- Leftmost match of the regex `agentId:\s*([a-zA-Z0-9]+)`, returning the
captured token.  The scan advances one character at a time exactly as a
backtracking engine advances the overall match start. -/
def agentIdScan : List Char → Option (List Char)
  | [] => none
  | c :: rest =>
    if agentIdNeedle.toList.isPrefixOf (c :: rest) then
      let r := (c :: rest).drop agentIdNeedle.length
      let tok := (r.dropWhile jsWhitespaceChar).takeWhile isAlnumChar
      if tok.isEmpty then agentIdScan rest else some tok
    else agentIdScan rest

/-- Leftmost match of `<open>([^<]+)<close>`: at each candidate start the
greedy `[^<]+` run is forced (a shorter body cannot be followed by the `<` of
the closing tag), so on failure the engine advances the start position. -/
def tagScan (openTag closeTag : List Char) : List Char → Option (List Char)
  | [] => none
  | c :: rest =>
    if openTag.isPrefixOf (c :: rest) then
      let r := (c :: rest).drop openTag.length
      let body := r.takeWhile (fun ch => !(ch == '<'))
      if !body.isEmpty && closeTag.isPrefixOf (r.drop body.length) then some body
      else tagScan openTag closeTag rest
    else tagScan openTag closeTag rest

/-- Text of a result content: the string itself, or the `text` of the first
array element whose `type` is `"text"`, defaulting to the empty string. -/
def contentText : BlockContent → String
  | .str s => s
  | .parts l =>
    match l.find? (fun p => p.type == some textPartType) with
    | some p => p.text.getD emptyString
    | none => ""

/-- `extractBackgroundAgentId` from the source. -/
def extractBackgroundAgentId (c : BlockContent) : Option String :=
  (agentIdScan (contentText c).toList).map List.asString

/-- `parseTaskOutputResult` from the source: both tag matches must succeed. -/
def parseTaskOutputResult (c : BlockContent) : Option (String × String) :=
  let text := (contentText c).toList
  match tagScan taskIdOpenTag.toList taskIdCloseTag.toList text,
        tagScan statusOpenTag.toList statusCloseTag.toList text with
  | some tid, some st => some (tid.asString, st.asString)
  | _, _ => none

/-- The `isBackgroundLaunch` test: string content is searched directly, array
content is searched in every `text`-typed part. -/
def isBackgroundLaunchContent : Option BlockContent → Bool
  | none => false
  | some (.str s) => strIncludes asyncLaunchNeedle s
  | some (.parts l) =>
    l.any (fun p =>
      p.type == some textPartType
        && (match p.text with
            | some t => strIncludes asyncLaunchNeedle t
            | none => false))

/-- JavaScript truthiness of `block.content` (an empty string is falsy, any
array is truthy, `undefined` is falsy). -/
def contentTruthy : Option BlockContent → Bool
  | none => false
  | some (.str s) => !(s == "")
  | some (.parts _) => true

/-! ## The interpreter state and `processEntry` -/

/-- Mutable state threaded through `processEntry`: the agent map, the
background correlation map, the latest todos and the fields written directly
into the result (`sessionStart`, `lastActivatedSkill`). -/
structure ParseState where
  agentMap : AgentMap := []
  bgMap : BgMap := []
  todos : List TodoItem := []
  sessionStart : Option Int := none
  lastSkill : Option SkillInvocation := none
deriving DecidableEq, Repr

def initialParseState : ParseState := {}

/-- `MAX_AGENT_MAP_SIZE`. -/
def maxAgentMapSize : Nat := 50

/-- `MAX_TAIL_BYTES`. -/
def maxTailBytes : Nat := 512 * 1024

/-- `STALE_AGENT_THRESHOLD_MS`. -/
def staleAgentThresholdMs : Int := 30 * 60 * 1000

/-- The agent record created for a `Task` / `proxy_Task` invocation. -/
def mkLaunchAgent (ts : Int) (bid : String) (inp : Option BlockInput) : ActiveAgent :=
  { id := bid
    type := (inp.bind (·.subagent_type)).getD unknownTypeName
    model := inp.bind (·.model)
    description := inp.bind (·.description)
    status := .running
    startTime := ts }

/-- One step of the bounded-map eviction scan: keep the first completed agent
with the strictly smallest start time. -/
def oldestCompletedStep : Option (String × Int) → String × ActiveAgent → Option (String × Int)
  | none, p => if p.2.status = .completed then some (p.1, p.2.startTime) else none
  | some (k, t), p =>
    if p.2.status = .completed ∧ p.2.startTime < t then some (p.1, p.2.startTime) else some (k, t)

/-- The eviction scan over the whole map (`oldestCompleted` in the source). -/
def findOldestCompleted (m : AgentMap) : Option String :=
  (m.foldl oldestCompletedStep none).map Prod.fst

/-- Insertion of a launched agent with the bounded-map eviction of the
source: at or above capacity the oldest completed agent (if any) is deleted,
then the new agent is stored. -/
def insertAgent (maxSize : Nat) (m : AgentMap) (k : String) (a : ActiveAgent) : AgentMap :=
  let m' :=
    if maxSize ≤ m.length then
      match findOldestCompleted m with
      | some victim => aDelete victim m
      | none => m
    else m
  aSet k a m'

/-- Completion of an agent at a result timestamp. -/
def completeAgent (ts : Int) (a : ActiveAgent) : ActiveAgent :=
  { a with status := .completed, endTime := some ts }

/-- The `tool_use` half of the block loop in `processEntry`. -/
def toolUseStep (ts : Int) (b : ContentBlock) (st : ParseState) : ParseState :=
  match b.id, b.name with
  | some bid, some bname =>
    if b.type = toolUseType ∧ bid ≠ "" ∧ bname ≠ "" then
      if bname = taskToolName ∨ bname = proxyTaskToolName then
        { st with agentMap := insertAgent maxAgentMapSize st.agentMap bid (mkLaunchAgent ts bid b.input) }
      else if bname = todoWriteToolName then
        match b.input.bind (·.todos) with
        | some newTodos =>
          { st with todos := newTodos.map (fun t =>
              { content := t.content, status := t.status, activeForm := t.activeForm }) }
        | none => st
      else if bname = skillToolName ∨ bname = proxySkillToolName then
        match b.input.bind (·.skill) with
        | some sk =>
          if sk ≠ "" then
            { st with lastSkill := some { name := sk, args := b.input.bind (·.args), timestamp := ts } }
          else st
        | none => st
      else st
    else st
  | _, _ => st

/-- The `tool_result` half of the block loop in `processEntry`: the direct
completion / async-acknowledgment path, then the `TaskOutput`
completion-report path on the updated state. -/
def toolResultStep (ts : Int) (b : ContentBlock) (st : ParseState) : ParseState :=
  match b.tool_use_id with
  | some tuid =>
    if b.type = toolResultType ∧ tuid ≠ "" then
      let st1 :=
        match aGet tuid st.agentMap with
        | some agent =>
          if isBackgroundLaunchContent b.content then
            if contentTruthy b.content then
              match b.content with
              | some bc =>
                match extractBackgroundAgentId bc with
                | some bgId => { st with bgMap := aSet bgId tuid st.bgMap }
                | none => st
              | none => st
            else st
          else
            { st with agentMap := aSet tuid (completeAgent ts agent) st.agentMap }
        | none => st
      if contentTruthy b.content then
        match b.content with
        | some bc =>
          match parseTaskOutputResult bc with
          | some pr =>
            if pr.2 = completedStatusText then
              match aGet pr.1 st1.bgMap with
              | some origTuid =>
                match aGet origTuid st1.agentMap with
                | some bgAgent =>
                  if bgAgent.status = .running then
                    { st1 with agentMap := aSet origTuid (completeAgent ts bgAgent) st1.agentMap }
                  else st1
                | none => st1
              | none => st1
            else st1
          | none => st1
        | none => st1
      else st1
    else st
  | none => st

/-- Processing of one content block. -/
def processBlock (ts : Int) (st : ParseState) (b : ContentBlock) : ParseState :=
  toolResultStep ts b (toolUseStep ts b st)

/-- `processEntry` from the source: resolve the entry timestamp (defaulting
to the current time), set the session start from the first timestamped entry,
then fold the content blocks. -/
def processEntry (now : Int) (e : TranscriptEntry) (st : ParseState) : ParseState :=
  let ts := e.timestamp.getD now
  let st0 :=
    if st.sessionStart = none ∧ e.timestamp ≠ none then { st with sessionStart := some ts }
    else st
  match e.content with
  | none => st0
  | some blocks => blocks.foldl (processBlock ts) st0

/-- Folding a list of entries in order. -/
def foldEntries (now : Int) (evs : List TranscriptEntry) (st : ParseState) : ParseState :=
  evs.foldl (fun s e => processEntry now e s) st

/-! ## Staleness finalisation and output selection (`parseTranscript` tail) -/

/-- The post-fold staleness pass: a job still running strictly longer than
the threshold is force-completed at `start + threshold`. -/
def finalizeStale (now : Int) (m : AgentMap) : AgentMap :=
  m.map (fun p =>
    if p.2.status = .running ∧ staleAgentThresholdMs < now - p.2.startTime then
      (p.1, { p.2 with status := .completed, endTime := some (p.2.startTime + staleAgentThresholdMs) })
    else p)

/-- JavaScript `Array.prototype.slice(start)` with a possibly negative start. -/
def jsSliceFrom {α : Type} (start : Int) (l : List α) : List α :=
  let n : Int := l.length
  let s : Int := if start < 0 then max (n + start) 0 else min start n
  l.drop s.toNat

/-- The output selection of `parseTranscript`:
`[...running, ...completed.slice(-(10 - running.length))].slice(0, 10)`. -/
def selectAgents (m : AgentMap) : List ActiveAgent :=
  let vals := m.map Prod.snd
  let running := vals.filter (fun a => a.status == .running)
  let completedAgents := vals.filter (fun a => a.status == .completed)
  (running ++ jsSliceFrom (-(10 - (running.length : Int))) completedAgents).take 10

/-! ## Line reading (`readTailLines` and the streaming path) -/

/-- Split a character list at newline characters, the semantics of
`String.prototype.split('\n')` (never returns an empty list; a trailing
newline yields a trailing empty fragment). -/
def splitNl : List Char → List (List Char)
  | [] => [[]]
  | c :: rest =>
    if c = '\n' then [] :: splitNl rest
    else
      match splitNl rest with
      | [] => [[c]]
      | l :: ls => (c :: l) :: ls

/-- `readTailLines`: read the final `maxBytes` of the file, split on newline,
and when the read started mid-file discard the first (possibly partial)
fragment.  Multi-byte UTF-8 boundary effects of `Buffer.toString` are not
modelled (file bytes are characters here). -/
def readTailLinesModel (f : List Char) (maxBytes : Nat) : List (List Char) :=
  let startOffset := f.length - maxBytes
  let lines := splitNl (f.drop startOffset)
  if 0 < startOffset ∧ lines ≠ [] then lines.tail else lines

/-- Lines produced by the `createReadStream`/`readline` path for an
LF-delimited file: one line per newline, plus the final fragment when it is
non-empty (`readline` emits no line for a trailing newline).  Carriage-return
normalisation by `readline` is not modelled; the event log contract is
LF-delimited JSONL. -/
def streamLinesModel (f : List Char) : List (List Char) :=
  let ls := splitNl f
  if ls.getLastD [] = [] then ls.dropLast else ls

/-- Blankness test `!line.trim()`. -/
def isBlankLine (l : List Char) : Bool :=
  l.all jsWhitespaceChar

/-- The shared per-line loop: skip blank lines, decode (`JSON.parse`,
abstracted as a total decode function returning `none` for malformed lines)
and process.  Malformed lines are skipped individually. -/
def foldLines (decode : List Char → Option TranscriptEntry) (now : Int)
    (lines : List (List Char)) (st : ParseState) : ParseState :=
  lines.foldl (fun s l =>
    if isBlankLine l then s
    else
      match decode l with
      | some e => processEntry now e s
      | none => s) st

/-- `TranscriptData`, the result record of `parseTranscript`. -/
structure TranscriptData where
  agents : List ActiveAgent := []
  todos : List TodoItem := []
  sessionStart : Option Int := none
  lastActivatedSkill : Option SkillInvocation := none
deriving DecidableEq, Repr

def emptyTranscriptData : TranscriptData := {}

/-- The tail of `parseTranscript`: staleness pass, selection, and assembly of
the result record. -/
def stateToData (now : Int) (st : ParseState) : TranscriptData :=
  let m := finalizeStale now st.agentMap
  { agents := selectAgents m
    todos := st.todos
    sessionStart := st.sessionStart
    lastActivatedSkill := st.lastSkill }

/-- `parseTranscript` along the tail-reading branch (large files). -/
def parseViaTail (decode : List Char → Option TranscriptEntry) (now : Int)
    (f : List Char) (budget : Nat) : TranscriptData :=
  stateToData now (foldLines decode now (readTailLinesModel f budget) initialParseState)

/-- `parseTranscript` along the full-streaming branch (small files). -/
def parseViaStream (decode : List Char → Option TranscriptEntry) (now : Int)
    (f : List Char) : TranscriptData :=
  stateToData now (foldLines decode now (streamLinesModel f) initialParseState)

/-- `parseTranscript`: a missing file (`!transcriptPath || !existsSync`)
yields the default result; otherwise the branch on `fileSize > MAX_TAIL_BYTES`
selects tail reading or full streaming. -/
def parseTranscriptModel (decode : List Char → Option TranscriptEntry) (now : Int)
    (file : Option (List Char)) : TranscriptData :=
  match file with
  | none => emptyTranscriptData
  | some f =>
    if maxTailBytes < f.length then parseViaTail decode now f maxTailBytes
    else parseViaStream decode now f

/-! ## Usage cache client (`src/hud/usage-api.ts`) -/

/-- `CACHE_TTL_SUCCESS_MS`. -/
def cacheTtlSuccessMs : Int := 60 * 1000

/-- `CACHE_TTL_FAILURE_MS`. -/
def cacheTtlFailureMs : Int := 15 * 1000

/-- `RateLimits` from `src/hud/types.ts`. -/
structure RateLimits where
  fiveHourPercent : Int
  weeklyPercent : Int
deriving DecidableEq, Repr

/-- `UsageCache` entries as persisted in the cache file. -/
structure UsageCache where
  timestamp : Int
  data : Option RateLimits := none
  error : Bool := false
deriving DecidableEq, Repr

/-- `OAuthCredentials`. -/
structure OAuthCredentials where
  accessToken : String
  expiresAt : Option Int := none
deriving DecidableEq, Repr

/-- One utilization sub-object of the API response; `none` models an absent
or non-finite number (`isFinite` failures are treated as absent-equivalent,
both clamp to 0). -/
structure UsageApiResponse where
  fiveHourUtilization : Option Int := none
  sevenDayUtilization : Option Int := none
deriving DecidableEq, Repr

/-- `isCacheValid`: the failure TTL applies to error entries, the success TTL
to the rest. -/
def isCacheValid (now : Int) (c : UsageCache) : Bool :=
  now - c.timestamp < (if c.error then cacheTtlFailureMs else cacheTtlSuccessMs)

/-- `validateCredentials`. -/
def validateCredentials (now : Int) (creds : OAuthCredentials) : Bool :=
  if creds.accessToken == "" then false
  else
    match creds.expiresAt with
    | some e => decide (now < e)
    | none => true

/-- `parseUsageResponse`: need at least one value, clamp both to `[0, 100]`,
missing treated as 0. -/
def parseUsageResponse (resp : UsageApiResponse) : Option RateLimits :=
  match resp.fiveHourUtilization, resp.sevenDayUtilization with
  | none, none => none
  | fh, sd =>
    let clamp := fun (v : Option Int) => max 0 (min 100 (v.getD 0))
    some { fiveHourPercent := clamp fh, weeklyPercent := clamp sd }

/-- Outcome of one `getUsage` call: the returned value, whether the network
was contacted, and the cache state afterwards. -/
structure GetUsageOutcome where
  data : Option RateLimits
  networkCalled : Bool
  cacheAfter : Option UsageCache
deriving DecidableEq, Repr

/-- The cache-miss continuation of `getUsage`: resolve credentials (the
keychain/file resolution is abstracted as an optional credential value),
call the API (`resp = none` models every network failure), parse and cache. -/
def getUsageFresh (now : Int) (creds : Option OAuthCredentials)
    (resp : Option UsageApiResponse) : GetUsageOutcome :=
  match creds with
  | none => { data := none, networkCalled := false, cacheAfter := some { timestamp := now, data := none, error := true } }
  | some cr =>
    if validateCredentials now cr then
      match resp with
      | none => { data := none, networkCalled := true, cacheAfter := some { timestamp := now, data := none, error := true } }
      | some r =>
        let usage := parseUsageResponse r
        { data := usage, networkCalled := true
          cacheAfter := some { timestamp := now, data := usage, error := usage.isNone } }
    else { data := none, networkCalled := false, cacheAfter := some { timestamp := now, data := none, error := true } }

/-- `getUsage`: return the cached data immediately while the cache entry is
within its TTL, otherwise run the fresh path. -/
def getUsageModel (now : Int) (cache : Option UsageCache) (creds : Option OAuthCredentials)
    (resp : Option UsageApiResponse) : GetUsageOutcome :=
  match cache with
  | some c =>
    if isCacheValid now c then { data := c.data, networkCalled := false, cacheAfter := some c }
    else getUsageFresh now creds resp
  | none => getUsageFresh now creds resp

/-! ## Entry point (`src/hud/index.ts`) -/

def waitingPlaceholder : String := "[SISYPHUS] waiting..."

def errorPlaceholder : String := "[SISYPHUS] error"

/-- The stdin JSON object; its fields are irrelevant to the entry-point
claims and are abstracted. -/
structure StdinData where
  cwd : Option String := none
deriving DecidableEq, Repr

/-- The space to non-breaking-space post-processing of the final output. -/
def nbspReplace (s : String) : String :=
  s.map (fun c => if c = ' ' then ' ' else c)

/-- `main`: everything sits inside one `try`.  `stdinRead` models the result
of `readStdin` (`Except.error` for a throw, `Except.ok none` for no input);
`body` models the remainder of the pipeline producing the rendered output
(`Except.error` for any uncaught failure).  The catch prints the fixed error
placeholder; the no-input branch prints the waiting placeholder and returns;
otherwise the rendered output is whitespace-normalised and printed. -/
def mainModel (stdinRead : Except Unit (Option StdinData))
    (body : StdinData → Except Unit String) : String :=
  match stdinRead with
  | .error _ => errorPlaceholder
  | .ok none => waitingPlaceholder
  | .ok (some s) =>
    match body s with
    | .ok out => nbspReplace out
    | .error _ => errorPlaceholder

/-! ## Basic lemmas -/

theorem splitNl_ne_nil (l : List Char) : splitNl l ≠ [] := by
  induction l with
  | nil => simp [splitNl]
  | cons c rest ih =>
    simp only [splitNl]
    split
    · simp
    · split
      · simp
      · simp

theorem toolUseStep_of_ne_tool_use (ts : Int) (b : ContentBlock) (st : ParseState)
    (h : b.type ≠ toolUseType) : toolUseStep ts b st = st := by
  cases hid : b.id with
  | none => simp [toolUseStep, hid]
  | some bid =>
    cases hname : b.name with
    | none => simp [toolUseStep, hid, hname]
    | some bname =>
      simp only [toolUseStep, hid, hname]
      rw [if_neg (fun hh => h hh.1)]

/-! ## Claim C1: the entry point -/

/-- Claim C1: the entry point always terminates with exactly one output
write (hence at least one line): the fixed waiting placeholder when no stdin
object is available, the fixed error placeholder when reading stdin or any
later stage of the pipeline fails, and the rendered line otherwise. -/
theorem entry_point_always_outputs (r : Except Unit (Option StdinData))
    (body : StdinData → Except Unit String) :
    1 ≤ (splitNl (mainModel r body).toList).length
    ∧ (r = .ok none → mainModel r body = waitingPlaceholder)
    ∧ (∀ e : Unit, r = .error e → mainModel r body = errorPlaceholder)
    ∧ (∀ s e, r = .ok (some s) → body s = .error e → mainModel r body = errorPlaceholder) := by
  refine ⟨?_, ?_, ?_, ?_⟩
  · exact List.length_pos.mpr (splitNl_ne_nil _)
  · intro h; subst h; rfl
  · intro e h; subst h; rfl
  · intro s e h hb; subst h; simp [mainModel, hb]

/-- Witness for C1 at concrete inputs. -/
theorem entry_point_always_outputs_witness :
    mainModel (Except.ok none) (fun _ => Except.error ()) = waitingPlaceholder
    ∧ mainModel (Except.error ()) (fun _ => Except.error ()) = errorPlaceholder :=
  ⟨(entry_point_always_outputs (Except.ok none) (fun _ => Except.error ())).2.1 rfl,
   (entry_point_always_outputs (Except.error ()) (fun _ => Except.error ())).2.2.1 () rfl⟩

/-! ## Claim C9: usage cache TTLs -/

/-- Claim C9: while a cached entry is within its TTL (60 s success, 15 s
failure) `getUsage` returns the cached data with no network call; two queries
within the success TTL of a success entry both return the cached data and
never touch the network; the failure TTL is strictly shorter than the
success TTL. -/
theorem usage_cache_ttl (t1 t2 : Int) (c : UsageCache)
    (creds1 creds2 : Option OAuthCredentials) (resp1 resp2 : Option UsageApiResponse)
    (hs : c.error = false)
    (h1 : t1 - c.timestamp < cacheTtlSuccessMs)
    (h2 : t2 - c.timestamp < cacheTtlSuccessMs) :
    (∀ (t : Int) (cc : UsageCache) (cr : Option OAuthCredentials) (rr : Option UsageApiResponse),
        isCacheValid t cc = true →
          (getUsageModel t (some cc) cr rr).data = cc.data
          ∧ (getUsageModel t (some cc) cr rr).networkCalled = false
          ∧ (getUsageModel t (some cc) cr rr).cacheAfter = some cc)
    ∧ (getUsageModel t1 (some c) creds1 resp1).data = c.data
    ∧ (getUsageModel t1 (some c) creds1 resp1).networkCalled = false
    ∧ (getUsageModel t2 ((getUsageModel t1 (some c) creds1 resp1).cacheAfter) creds2 resp2).data = c.data
    ∧ (getUsageModel t2 ((getUsageModel t1 (some c) creds1 resp1).cacheAfter) creds2 resp2).networkCalled = false
    ∧ cacheTtlFailureMs < cacheTtlSuccessMs := by
  have hv : ∀ (t : Int), t - c.timestamp < cacheTtlSuccessMs → isCacheValid t c = true := by
    intro t ht
    simp [isCacheValid, hs]
    exact ht
  have hcacheHit : ∀ (t : Int) (cc : UsageCache) (cr : Option OAuthCredentials)
      (rr : Option UsageApiResponse), isCacheValid t cc = true →
        (getUsageModel t (some cc) cr rr).data = cc.data
        ∧ (getUsageModel t (some cc) cr rr).networkCalled = false
        ∧ (getUsageModel t (some cc) cr rr).cacheAfter = some cc := by
    intro t cc cr rr hvalid
    simp [getUsageModel, hvalid]
  have e1 := hcacheHit t1 c creds1 resp1 (hv t1 h1)
  refine ⟨hcacheHit, e1.1, e1.2.1, ?_, ?_, by norm_num [cacheTtlFailureMs, cacheTtlSuccessMs]⟩
  · rw [e1.2.2]
    exact (hcacheHit t2 c creds2 resp2 (hv t2 h2)).1
  · rw [e1.2.2]
    exact (hcacheHit t2 c creds2 resp2 (hv t2 h2)).2.1

def usageCacheWitnessEntry : UsageCache :=
  { timestamp := 500, data := some { fiveHourPercent := 10, weeklyPercent := 20 }, error := false }

/-- Witness for C9 at concrete inputs. -/
theorem usage_cache_ttl_witness :
    (getUsageModel 1000 (some usageCacheWitnessEntry) none none).data = usageCacheWitnessEntry.data
    ∧ (getUsageModel 1000 (some usageCacheWitnessEntry) none none).networkCalled = false := by
  have h := usage_cache_ttl 1000 2000 usageCacheWitnessEntry none none none none rfl
    (by decide) (by decide)
  exact ⟨h.2.1, h.2.2.1⟩

/-! ## Claim C4: staleness force-completion -/

/-- Claim C4: every job still running after the fold whose running time
strictly exceeds the 30-minute threshold is force-completed with end time
equal to start time plus the threshold (not the current wall-clock time). -/
theorem stale_agent_force_completion (now : Int) (m : AgentMap) (jid : String) (a : ActiveAgent)
    (h1 : aGet jid m = some a) (h2 : a.status = .running)
    (h3 : staleAgentThresholdMs < now - a.startTime) :
    aGet jid (finalizeStale now m) =
      some { a with status := .completed, endTime := some (a.startTime + staleAgentThresholdMs) } := by
  induction m with
  | nil => simp [aGet] at h1
  | cons p rest ih =>
    by_cases hk : p.1 = jid
    · rw [aGet, if_pos hk] at h1
      have hp2 : p.2 = a := Option.some.inj h1
      have hcond : p.2.status = AgentStatus.running ∧ staleAgentThresholdMs < now - p.2.startTime := by
        rw [hp2]; exact ⟨h2, h3⟩
      simp only [finalizeStale, List.map_cons]
      rw [if_pos hcond, aGet, if_pos hk, hp2]
    · rw [aGet, if_neg hk] at h1
      have hrest := ih h1
      simp only [finalizeStale, List.map_cons]
      by_cases hcond : p.2.status = AgentStatus.running ∧ staleAgentThresholdMs < now - p.2.startTime
      · rw [if_pos hcond, aGet, if_neg hk]
        exact hrest
      · rw [if_neg hcond, aGet, if_neg hk]
        exact hrest

def staleWitnessAgent : ActiveAgent :=
  { id := "w1", type := "explore", status := .running, startTime := 0 }

/-- Witness for C4 at a concrete map. -/
theorem stale_agent_force_completion_witness :
    aGet staleWitnessAgent.id (finalizeStale 1800001 [(staleWitnessAgent.id, staleWitnessAgent)]) =
      some { staleWitnessAgent with
              status := .completed
              endTime := some (staleWitnessAgent.startTime + staleAgentThresholdMs) } :=
  stale_agent_force_completion 1800001 [(staleWitnessAgent.id, staleWitnessAgent)]
    staleWitnessAgent.id staleWitnessAgent (by decide) rfl (by decide)

/-! ## Claim C3: async-launch correlation scenario -/

def exploreTypeName : String := "explore"

def c3LaunchId : String := "t1"

def c3ReportToolUseId : String := "t2"

def c3Token : String := "abc123"

def c3AckText : String := "Async agent launched.\nagentId: abc123"

def c3ReportText : String := "<task_id>abc123</task_id>\n<status>completed</status>"

def c3LaunchEntry : TranscriptEntry :=
  { timestamp := some 1000
    content := some [{ type := toolUseType, id := some c3LaunchId, name := some taskToolName,
                       input := some { subagent_type := some exploreTypeName } }] }

def c3AckEntry : TranscriptEntry :=
  { timestamp := some 2000
    content := some [{ type := toolResultType, tool_use_id := some c3LaunchId,
                       content := some (.str c3AckText) }] }

def c3ReportEntry : TranscriptEntry :=
  { timestamp := some 3000
    content := some [{ type := toolResultType, tool_use_id := some c3ReportToolUseId,
                       content := some (.str c3ReportText) }] }

def c3StateAfterAck : ParseState :=
  foldEntries 0 [c3LaunchEntry, c3AckEntry] initialParseState

def c3StateFinal : ParseState :=
  foldEntries 0 [c3LaunchEntry, c3AckEntry, c3ReportEntry] initialParseState

/-- Claim C3: after the async-launch acknowledgment the job `t1` is still
running and the token `abc123` is mapped to it; the later completion-report
block completes `t1` at the report's timestamp through that correlation, not
through a direct result match: the report's own `tool_use_id` matches no
tracked job, and replaying the report against the same state with an emptied
correlation map leaves `t1` running. -/
theorem async_correlation_scenario :
    (aGet c3LaunchId c3StateAfterAck.agentMap).map (·.status) = some .running
    ∧ aGet c3Token c3StateAfterAck.bgMap = some c3LaunchId
    ∧ (aGet c3LaunchId c3StateFinal.agentMap).map (·.status) = some .completed
    ∧ (aGet c3LaunchId c3StateFinal.agentMap).bind (·.endTime) = some 3000
    ∧ aGet c3ReportToolUseId c3StateFinal.agentMap = none
    ∧ (aGet c3LaunchId
        (processEntry 0 c3ReportEntry { c3StateAfterAck with bgMap := [] }).agentMap).map (·.status)
        = some .running := by
  decide

/-! ## Claim C10: correlation never reopens a completed job -/

theorem c10_core (ts : Int) (st : ParseState) (tok jid t : String) (a : ActiveAgent)
    (b : ContentBlock) (bc : BlockContent)
    (hbt : b.type = toolResultType)
    (htu : b.tool_use_id = some t) (hne : t ≠ "")
    (hmiss : aGet t st.agentMap = none)
    (hct : contentTruthy b.content = true)
    (hbc : b.content = some bc)
    (hparse : parseTaskOutputResult bc = some (tok, completedStatusText))
    (hbg : aGet tok st.bgMap = some jid)
    (ha : aGet jid st.agentMap = some a)
    (hcomp : a.status = .completed) :
    aGet jid (processBlock ts st b).agentMap = some a := by
  simp only [processBlock]
  rw [toolUseStep_of_ne_tool_use ts b st (by rw [hbt]; decide)]
  simp only [toolResultStep, htu]
  rw [if_pos ⟨hbt, hne⟩]
  simp only [hmiss, hct, if_true, hbc, hparse]
  rw [if_pos (hbc ▸ hct)]
  simp only [hbg, ha]
  rw [if_neg (by rw [hcomp]; decide)]
  exact ha

/-- Claim C10: a completion report resolved through the correlation map only
completes a job that is still running; a job already completed keeps its
whole record (status and end time) unchanged when a later token-matched
completion report is processed. -/
theorem correlation_completes_only_running (now tsr : Int) (st : ParseState)
    (tok jid t : String) (a : ActiveAgent) (b : ContentBlock) (bc : BlockContent)
    (hbt : b.type = toolResultType)
    (htu : b.tool_use_id = some t) (hne : t ≠ "")
    (hmiss : aGet t st.agentMap = none)
    (hct : contentTruthy b.content = true)
    (hbc : b.content = some bc)
    (hparse : parseTaskOutputResult bc = some (tok, completedStatusText))
    (hbg : aGet tok st.bgMap = some jid)
    (ha : aGet jid st.agentMap = some a)
    (hcomp : a.status = .completed) :
    aGet jid (processEntry now { timestamp := some tsr, content := some [b] } st).agentMap = some a := by
  by_cases hss : st.sessionStart = none
  · have hred : processEntry now { timestamp := some tsr, content := some [b] } st =
        processBlock tsr { st with sessionStart := some tsr } b := by
      simp [processEntry, hss]
    rw [hred]
    exact c10_core tsr { st with sessionStart := some tsr } tok jid t a b bc hbt htu hne
      hmiss hct hbc hparse hbg ha hcomp
  · have hred : processEntry now { timestamp := some tsr, content := some [b] } st =
        processBlock tsr st b := by
      simp [processEntry, hss]
    rw [hred]
    exact c10_core tsr st tok jid t a b bc hbt htu hne hmiss hct hbc hparse hbg ha hcomp

def c10Agent : ActiveAgent :=
  { id := "j1", type := "explore", status := .completed, startTime := 100, endTime := some 200 }

def c10Token : String := "zz9"

def c10Tuid : String := "r1"

def c10ReportText : String := "<task_id>zz9</task_id>\n<status>completed</status>"

def c10State : ParseState :=
  { agentMap := [(c10Agent.id, c10Agent)], bgMap := [(c10Token, c10Agent.id)] }

def c10Block : ContentBlock :=
  { type := toolResultType, tool_use_id := some c10Tuid, content := some (.str c10ReportText) }

/-- Witness for C10 at a concrete state and report block. -/
theorem correlation_completes_only_running_witness :
    aGet c10Agent.id
        (processEntry 0 { timestamp := some 900, content := some [c10Block] } c10State).agentMap
      = some c10Agent :=
  correlation_completes_only_running 0 900 c10State c10Token c10Agent.id c10Tuid c10Agent c10Block
    (.str c10ReportText) rfl rfl (by decide) (by decide) (by decide) rfl (by decide)
    (by decide) (by decide) rfl

/-! ## Association-list lemmas -/

theorem aGet_aSet_self {α : Type} (k : String) (v : α) (m : List (String × α)) :
    aGet k (aSet k v m) = some v := by
  induction m with
  | nil => simp [aSet, aGet]
  | cons p rest ih =>
    by_cases h : p.1 = k
    · simp [aSet, h, aGet]
    · simp [aSet, h, aGet, ih]

theorem aGet_aSet_ne {α : Type} (k j : String) (v : α) (m : List (String × α)) (h : j ≠ k) :
    aGet j (aSet k v m) = aGet j m := by
  induction m with
  | nil => simp [aSet, aGet, Ne.symm h]
  | cons p rest ih =>
    by_cases hp : p.1 = k
    · simp [aSet, hp, aGet, Ne.symm h]
    · simp [aSet, hp, aGet, ih]

theorem aGet_aDelete_ne {α : Type} (k j : String) (m : List (String × α)) (h : j ≠ k) :
    aGet j (aDelete k m) = aGet j m := by
  induction m with
  | nil => rfl
  | cons p rest ih =>
    by_cases hp : p.1 = k
    · have hpj : p.1 ≠ j := by rw [hp]; exact Ne.symm h
      have hr : aGet j (p :: rest) = aGet j rest := by rw [aGet, if_neg hpj]
      rw [hr]
      rw [show aDelete k (p :: rest) = aDelete k rest from by
        simp [aDelete, List.filter_cons, hp]]
      exact ih
    · have hne : (!(p.1 == k)) = true := by simp [hp]
      rw [show aDelete k (p :: rest) = p :: aDelete k rest from by
        simp [aDelete, List.filter_cons, hne]]
      rw [aGet, aGet]
      by_cases hj : p.1 = j
      · rw [if_pos hj, if_pos hj]
      · rw [if_neg hj, if_neg hj]
        exact ih

theorem aGet_mem {α : Type} (j : String) (m : List (String × α)) (a : α)
    (h : aGet j m = some a) : (j, a) ∈ m := by
  induction m with
  | nil => simp [aGet] at h
  | cons p rest ih =>
    rw [aGet] at h
    by_cases hp : p.1 = j
    · rw [if_pos hp] at h
      have hpa : p = (j, a) := by
        obtain ⟨p1, p2⟩ := p
        simp only at hp h
        subst hp
        rw [Option.some.inj h]
      rw [← hpa]
      exact List.mem_cons_self p rest
    · rw [if_neg hp] at h
      exact List.mem_cons_of_mem p (ih h)

theorem mem_aGet {α : Type} (j : String) (a : α) (m : List (String × α))
    (hnd : (aKeys m).Nodup) (hm : (j, a) ∈ m) : aGet j m = some a := by
  induction m with
  | nil => simp at hm
  | cons p rest ih =>
    rw [aKeys, List.map_cons, List.nodup_cons] at hnd
    rcases List.mem_cons.mp hm with h1 | h2
    · rw [← h1]
      simp [aGet]
    · have hp : p.1 ≠ j := by
        intro he
        exact hnd.1 (he ▸ (List.mem_map_of_mem Prod.fst h2))
      rw [aGet, if_neg hp]
      exact ih hnd.2 h2

theorem aGet_eq_none_iff {α : Type} (j : String) (m : List (String × α)) :
    aGet j m = none ↔ j ∉ aKeys m := by
  induction m with
  | nil => simp [aGet, aKeys]
  | cons p rest ih =>
    by_cases hp : p.1 = j
    · simp [aGet, hp, aKeys]
    · rw [aGet, if_neg hp, aKeys, List.map_cons]
      simp only [List.mem_cons, not_or]
      constructor
      · intro h; exact ⟨fun he => hp he.symm, (ih.mp h)⟩
      · rintro ⟨h1, h2⟩; exact ih.mpr h2

theorem aKeys_self_mem_aSet {α : Type} (k : String) (v : α) (m : List (String × α)) :
    k ∈ aKeys (aSet k v m) := by
  induction m with
  | nil => simp [aSet, aKeys]
  | cons p rest ih =>
    by_cases hp : p.1 = k
    · simp [aSet, hp, aKeys]
    · simp only [aSet, if_neg hp, aKeys, List.map_cons, List.mem_cons]
      exact Or.inr ih

theorem aKeys_subset_aSet {α : Type} (k : String) (v : α) (m : List (String × α)) :
    aKeys m ⊆ aKeys (aSet k v m) := by
  induction m with
  | nil => simp [aKeys]
  | cons p rest ih =>
    by_cases hp : p.1 = k
    · simp [aSet, hp, aKeys]
    · simp only [aSet, if_neg hp, aKeys, List.map_cons]
      exact List.cons_subset_cons p.1 ih

theorem mem_aKeys_aDelete {α : Type} (k j : String) (m : List (String × α)) :
    j ∈ aKeys (aDelete k m) ↔ j ∈ aKeys m ∧ j ≠ k := by
  simp only [aKeys, aDelete, List.mem_map, List.mem_filter, Bool.not_eq_true', beq_eq_false_iff_ne]
  constructor
  · rintro ⟨p, ⟨hpm, hpk⟩, hpj⟩
    exact ⟨⟨p, hpm, hpj⟩, hpj ▸ hpk⟩
  · rintro ⟨⟨p, hpm, hpj⟩, hjk⟩
    exact ⟨p, ⟨hpm, hpj ▸ hjk⟩, hpj⟩

theorem length_aSet_le {α : Type} (k : String) (v : α) (m : List (String × α)) :
    (aSet k v m).length ≤ m.length + 1 := by
  induction m with
  | nil => simp [aSet]
  | cons p rest ih =>
    by_cases hp : p.1 = k
    · simp [aSet, hp]
    · simp only [aSet, if_neg hp, List.length_cons]
      exact Nat.succ_le_succ ih

theorem length_aDelete_lt {α : Type} (k : String) (m : List (String × α))
    (h : k ∈ aKeys m) : (aDelete k m).length < m.length := by
  induction m with
  | nil => simp [aKeys] at h
  | cons p rest ih =>
    simp only [aDelete, List.filter_cons]
    by_cases hp : p.1 = k
    · rw [show ((!(p.1 == k)) = false) from by simp [hp]]
      simp only [Bool.false_eq_true, if_false, List.length_cons]
      exact Nat.lt_succ_of_le (List.length_filter_le _ rest)
    · rw [show ((!(p.1 == k)) = true) from by simp [hp]]
      simp only [if_true, List.length_cons]
      have hk : k ∈ aKeys rest := by
        rw [aKeys, List.map_cons, List.mem_cons] at h
        rcases h with h1 | h2
        · exact absurd h1.symm hp
        · rw [aKeys]; exact h2
      exact Nat.succ_lt_succ (ih hk)

/-! ## Eviction-scan lemmas -/

theorem oldestCompletedStep_some (x : String × Int) (p : String × ActiveAgent) :
    ∃ y, oldestCompletedStep (some x) p = some y := by
  obtain ⟨k, t⟩ := x
  simp only [oldestCompletedStep]
  split
  · exact ⟨_, rfl⟩
  · exact ⟨_, rfl⟩

theorem oldest_foldl_some (m : AgentMap) (x : String × Int) :
    ∃ y, m.foldl oldestCompletedStep (some x) = some y := by
  induction m generalizing x with
  | nil => exact ⟨x, rfl⟩
  | cons p rest ih =>
    rw [List.foldl_cons]
    obtain ⟨y, hy⟩ := oldestCompletedStep_some x p
    rw [hy]
    exact ih y

theorem foc_none_all (m : AgentMap) (h : m.foldl oldestCompletedStep none = none) :
    ∀ p ∈ m, p.2.status ≠ .completed := by
  induction m with
  | nil => simp
  | cons p rest ih =>
    rw [List.foldl_cons] at h
    by_cases hc : p.2.status = .completed
    · exfalso
      rw [show oldestCompletedStep none p = some (p.1, p.2.startTime) from by
        simp [oldestCompletedStep, hc]] at h
      obtain ⟨y, hy⟩ := oldest_foldl_some rest (p.1, p.2.startTime)
      rw [hy] at h
      exact Option.noConfusion h
    · rw [show oldestCompletedStep none p = none from by simp [oldestCompletedStep, hc]] at h
      intro q hq
      rcases List.mem_cons.mp hq with h1 | h2
      · rw [h1]; exact hc
      · exact ih h q h2

theorem foc_mem_aux (m : AgentMap) : ∀ (acc : Option (String × Int)) (k : String) (t : Int),
    m.foldl oldestCompletedStep acc = some (k, t) →
    acc = some (k, t) ∨ ∃ a, (k, a) ∈ m ∧ a.status = .completed ∧ a.startTime = t := by
  induction m with
  | nil => intro acc k t h; exact Or.inl h
  | cons p rest ih =>
    intro acc k t h
    rw [List.foldl_cons] at h
    rcases ih (oldestCompletedStep acc p) k t h with hstep | ⟨a, ha, hc, ht⟩
    · cases acc with
      | none =>
        simp only [oldestCompletedStep] at hstep
        by_cases hcp : p.2.status = .completed
        · rw [if_pos hcp] at hstep
          right
          refine ⟨p.2, ?_, hcp, congrArg Prod.snd (Option.some.inj hstep)⟩
          have h1 : p.1 = k := congrArg Prod.fst (Option.some.inj hstep)
          rw [show ((k, p.2) : String × ActiveAgent) = p from by rw [← h1]]
          exact List.mem_cons_self p rest
        · rw [if_neg hcp] at hstep
          exact Option.noConfusion hstep
      | some x =>
        obtain ⟨k0, t0⟩ := x
        simp only [oldestCompletedStep] at hstep
        by_cases hlt : p.2.status = .completed ∧ p.2.startTime < t0
        · rw [if_pos hlt] at hstep
          right
          refine ⟨p.2, ?_, hlt.1, congrArg Prod.snd (Option.some.inj hstep)⟩
          have h1 : p.1 = k := congrArg Prod.fst (Option.some.inj hstep)
          rw [show ((k, p.2) : String × ActiveAgent) = p from by rw [← h1]]
          exact List.mem_cons_self p rest
        · rw [if_neg hlt] at hstep
          exact Or.inl hstep
    · exact Or.inr ⟨a, List.mem_cons_of_mem p ha, hc, ht⟩

theorem foc_mono (m : AgentMap) : ∀ (k' : String) (t' : Int) (k : String) (t : Int),
    m.foldl oldestCompletedStep (some (k', t')) = some (k, t) → t ≤ t' := by
  induction m with
  | nil =>
    intro k' t' k t h
    exact le_of_eq (congrArg Prod.snd (Option.some.inj h)).symm
  | cons p rest ih =>
    intro k' t' k t h
    rw [List.foldl_cons] at h
    simp only [oldestCompletedStep] at h
    by_cases hc : p.2.status = .completed ∧ p.2.startTime < t'
    · rw [if_pos hc] at h
      exact le_trans (ih p.1 p.2.startTime k t h) (le_of_lt hc.2)
    · rw [if_neg hc] at h
      exact ih k' t' k t h

theorem foc_min (m : AgentMap) : ∀ (acc : Option (String × Int)) (k : String) (t : Int),
    m.foldl oldestCompletedStep acc = some (k, t) →
    ∀ p ∈ m, p.2.status = .completed → t ≤ p.2.startTime := by
  induction m with
  | nil => intro acc k t _ p hp; simp at hp
  | cons q rest ih =>
    intro acc k t h p hp hc
    rw [List.foldl_cons] at h
    rcases List.mem_cons.mp hp with h1 | hmem
    · subst h1
      cases acc with
      | none =>
        rw [show oldestCompletedStep none p = some (p.1, p.2.startTime) from by
          simp [oldestCompletedStep, hc]] at h
        exact foc_mono rest p.1 p.2.startTime k t h
      | some x =>
        obtain ⟨k0, t0⟩ := x
        by_cases hlt : p.2.startTime < t0
        · rw [show oldestCompletedStep (some (k0, t0)) p = some (p.1, p.2.startTime) from by
            simp [oldestCompletedStep, hc, hlt]] at h
          exact foc_mono rest p.1 p.2.startTime k t h
        · rw [show oldestCompletedStep (some (k0, t0)) p = some (k0, t0) from by
            simp [oldestCompletedStep, hlt]] at h
          exact le_trans (foc_mono rest k0 t0 k t h) (not_lt.mp hlt)
    · exact ih (oldestCompletedStep acc q) k t h p hmem hc

theorem findOldestCompleted_spec (m : AgentMap) (k : String)
    (h : findOldestCompleted m = some k) :
    ∃ a, (k, a) ∈ m ∧ a.status = .completed
      ∧ ∀ p ∈ m, p.2.status = .completed → a.startTime ≤ p.2.startTime := by
  unfold findOldestCompleted at h
  rcases hf : m.foldl oldestCompletedStep none with _ | x
  · rw [hf] at h; simp at h
  · rw [hf] at h
    obtain ⟨k1, t⟩ := x
    have hk : k1 = k := by simpa using h
    subst hk
    rcases foc_mem_aux m none k1 t hf with hacc | ⟨a, ha, hc, ht⟩
    · exact Option.noConfusion hacc
    · exact ⟨a, ha, hc, fun p hp hpc => ht ▸ foc_min m none k1 t hf p hp hpc⟩

theorem findOldestCompleted_none (m : AgentMap) (h : findOldestCompleted m = none) :
    ∀ p ∈ m, p.2.status ≠ .completed := by
  unfold findOldestCompleted at h
  rcases hf : m.foldl oldestCompletedStep none with _ | x
  · exact foc_none_all m hf
  · rw [hf] at h; simp at h

/-! ## Claim C2: the tracked-job cap -/

def c2LaunchEntry (i : Nat) : TranscriptEntry :=
  { timestamp := some (i : Int)
    content := some [{ type := toolUseType, id := some (toString i), name := some taskToolName }] }

def c2OverflowState : ParseState :=
  foldEntries 0 ((List.range 51).map c2LaunchEntry) initialParseState

set_option maxRecDepth 100000

/-- Counterexample to C2 as stated: 51 launch invocations with distinct ids
and no results leave 51 tracked jobs in the map — the cap of 50 is exceeded,
because when every tracked job is running nothing is evicted and the new job
is inserted anyway. -/
theorem agent_cap_overflow_counterexample :
    maxAgentMapSize < c2OverflowState.agentMap.length := by decide

/-- Claim C2 (amended): on a launch with the map at or above the 50-job cap,
the oldest completed job (when one exists) is evicted, so the map does not
grow; a running job is never evicted (its entry survives any launch of a
different id unchanged); any evicted job was a completed job of minimal
start time.  When every tracked job is running, nothing is evicted and the
map exceeds the cap. -/
theorem agent_cap_eviction_amended (m : AgentMap) (k : String) (a : ActiveAgent)
    (hnd : (aKeys m).Nodup) :
    (∀ j b, aGet j m = some b → b.status = .running → j ≠ k →
        aGet j (insertAgent maxAgentMapSize m k a) = some b)
    ∧ (maxAgentMapSize ≤ m.length → (∃ p ∈ m, p.2.status = .completed) →
        (insertAgent maxAgentMapSize m k a).length ≤ m.length)
    ∧ (∀ j, j ∈ aKeys m → j ∉ aKeys (insertAgent maxAgentMapSize m k a) →
        ∃ b, aGet j m = some b ∧ b.status = .completed
          ∧ ∀ p ∈ m, p.2.status = .completed → b.startTime ≤ p.2.startTime) := by
  refine ⟨?_, ?_, ?_⟩
  · intro j b hj hb hjk
    unfold insertAgent
    rw [aGet_aSet_ne _ _ _ _ hjk]
    by_cases hlen : maxAgentMapSize ≤ m.length
    · rw [if_pos hlen]
      rcases hfoc : findOldestCompleted m with _ | victim
      · exact hj
      · obtain ⟨c, hcm, hcc, _⟩ := findOldestCompleted_spec m victim hfoc
        have hjv : j ≠ victim := by
          intro he
          subst he
          have hcb : c = b := Option.some.inj ((mem_aGet j c m hnd hcm).symm.trans hj)
          rw [hcb] at hcc
          rw [hb] at hcc
          exact AgentStatus.noConfusion hcc
        rw [aGet_aDelete_ne _ _ _ hjv]
        exact hj
    · rw [if_neg hlen]
      exact hj
  · intro hlen hex
    unfold insertAgent
    rw [if_pos hlen]
    rcases hfoc : findOldestCompleted m with _ | victim
    · obtain ⟨p, hp, hpc⟩ := hex
      exact absurd hpc (findOldestCompleted_none m hfoc p hp)
    · obtain ⟨c, hcm, _, _⟩ := findOldestCompleted_spec m victim hfoc
      have hvk : victim ∈ aKeys m := List.mem_map_of_mem Prod.fst hcm
      calc (aSet k a (aDelete victim m)).length
          ≤ (aDelete victim m).length + 1 := length_aSet_le _ _ _
        _ ≤ m.length := Nat.succ_le_of_lt (length_aDelete_lt victim m hvk)
  · intro j hjin hjout
    unfold insertAgent at hjout
    by_cases hlen : maxAgentMapSize ≤ m.length
    · rw [if_pos hlen] at hjout
      rcases hfoc : findOldestCompleted m with _ | victim
      · rw [hfoc] at hjout
        exact absurd (aKeys_subset_aSet k a m hjin) hjout
      · rw [hfoc] at hjout
        have hjdel : j ∉ aKeys (aDelete victim m) :=
          fun hc => hjout (aKeys_subset_aSet k a _ hc)
        have hjv : j = victim := by
          by_contra hne
          exact hjdel ((mem_aKeys_aDelete victim j m).mpr ⟨hjin, hne⟩)
        subst hjv
        obtain ⟨c, hcm, hcc, hmin⟩ := findOldestCompleted_spec m j hfoc
        exact ⟨c, mem_aGet j c m hnd hcm, hcc, hmin⟩
    · rw [if_neg hlen] at hjout
      exact absurd (aKeys_subset_aSet k a m hjin) hjout

def c2wRunId : String := "run1"

def c2wNewId : String := "new1"

def c2wRunAgent : ActiveAgent :=
  { id := "run1", type := "explore", status := .running, startTime := 5 }

def c2wDoneAgent : ActiveAgent :=
  { id := "done1", type := "explore", status := .completed, startTime := 1, endTime := some 2 }

def c2wNewAgent : ActiveAgent :=
  { id := "new1", type := "explore", status := .running, startTime := 9 }

def c2wMap : AgentMap := [(c2wRunId, c2wRunAgent), (c2wDoneAgent.id, c2wDoneAgent)]

/-- Witness for the amended C2 at a concrete map. -/
theorem agent_cap_eviction_amended_witness :
    aGet c2wRunId (insertAgent maxAgentMapSize c2wMap c2wNewId c2wNewAgent) = some c2wRunAgent :=
  (agent_cap_eviction_amended c2wMap c2wNewId c2wNewAgent (by decide)).1
    c2wRunId c2wRunAgent (by decide) rfl (by decide)

/-! ## Claim C8: output selection -/

def c8RunAgent (i : Nat) : ActiveAgent :=
  { id := toString i, type := "explore", status := .running, startTime := (i : Int) }

def c8Map : AgentMap :=
  (List.range 11).map (fun i => (toString i, c8RunAgent i))

def c8bDoneA : ActiveAgent :=
  { id := "dA", type := "explore", status := .completed, startTime := 1, endTime := some 100 }

def c8bDoneB : ActiveAgent :=
  { id := "dB", type := "explore", status := .completed, startTime := 2, endTime := some 50 }

def c8bMap : AgentMap :=
  [(c8bDoneA.id, c8bDoneA), (c8bDoneB.id, c8bDoneB)]
    ++ (List.range 9).map (fun i => (toString i, c8RunAgent i))

/-- Counterexample to C8 as stated, in both respects.  First, with 11 running
jobs the selection holds only 10 jobs, so it does not contain all running
jobs — the final `.slice(0, 10)` drops running jobs beyond the first ten.
Second, the completed remainder is not the most-recently-completed: with 9
running jobs and one free slot, the map holding job `dA` (launched first,
completed at time 100) and job `dB` (launched second, completed at time 50)
selects `dB`, the last-launched completed job, and drops `dA`, the one most
recently completed — `completed.slice(-k)` slices the map's insertion
(launch) order, not completion order. -/
theorem selection_cap_counterexample :
    ((c8Map.map Prod.snd).filter (fun a => a.status == .running)).length = 11
    ∧ (selectAgents c8Map).length = 10
    ∧ c8RunAgent 10 ∉ selectAgents c8Map
    ∧ c8bDoneB ∈ selectAgents c8bMap
    ∧ c8bDoneA ∉ selectAgents c8bMap
    ∧ c8bDoneA.endTime = some 100
    ∧ c8bDoneB.endTime = some 50 := by decide

theorem jsSliceFrom_zero {α : Type} (l : List α) : jsSliceFrom 0 l = l := by
  simp only [jsSliceFrom]
  rw [if_neg (lt_irrefl (0 : Int))]
  rw [show ((0 : Int) ⊓ (l.length : Int)).toNat = 0 from by omega]
  exact List.drop_zero l

theorem jsSliceFrom_neg_pos {α : Type} (n : Nat) (hn : 0 < n) (l : List α) :
    jsSliceFrom (-(n : Int)) l = l.drop (l.length - n) := by
  simp only [jsSliceFrom]
  rw [if_pos (by omega : -(n : Int) < 0)]
  congr 1
  omega

theorem select_take_eq (r c : List ActiveAgent) (hk : r.length ≤ 10) :
    (r ++ jsSliceFrom (-(10 - (r.length : Int))) c).take 10
      = r ++ c.drop (c.length - (10 - r.length)) := by
  by_cases hk10 : r.length = 10
  · have hi : -((10 : Int) - (r.length : Int)) = 0 := by
      have hc : (r.length : Int) = 10 := by exact_mod_cast hk10
      rw [hc]
      norm_num
    have hc0 : 10 - r.length = 0 := by omega
    rw [hi, jsSliceFrom_zero, List.take_append_eq_append_take,
        List.take_of_length_le (le_of_eq hk10), hc0]
    simp [List.drop_length]
  · have hklt : r.length < 10 := lt_of_le_of_ne hk hk10
    have hcast : -((10 : Int) - (r.length : Int)) = -(((10 - r.length : Nat) : Int)) := by
      omega
    rw [hcast, jsSliceFrom_neg_pos (10 - r.length) (by omega) c]
    apply List.take_of_length_le
    rw [List.length_append, List.length_drop]
    omega

/-- Claim C8 (amended): the selection never exceeds 10 jobs; when at most 10
jobs are running it contains every running job and is exactly the running
jobs followed by up to (10 − runningCount) completed jobs, namely the
last-launched completed jobs (the final segment of the completed jobs in the
map's insertion order — not the most recently completed by completion time);
when more than 10 jobs are running it is exactly the first 10 running jobs,
so running jobs beyond ten are dropped. -/
theorem selection_cap_amended (m : AgentMap) :
    (selectAgents m).length ≤ 10
    ∧ (((m.map Prod.snd).filter (fun a => a.status == .running)).length ≤ 10 →
        ∀ a ∈ m.map Prod.snd, a.status = .running → a ∈ selectAgents m)
    ∧ (((m.map Prod.snd).filter (fun a => a.status == .running)).length ≤ 10 →
        selectAgents m
          = (m.map Prod.snd).filter (fun a => a.status == .running)
            ++ ((m.map Prod.snd).filter (fun a => a.status == .completed)).drop
                (((m.map Prod.snd).filter (fun a => a.status == .completed)).length
                  - (10 - ((m.map Prod.snd).filter (fun a => a.status == .running)).length)))
    ∧ (10 < ((m.map Prod.snd).filter (fun a => a.status == .running)).length →
        selectAgents m = ((m.map Prod.snd).filter (fun a => a.status == .running)).take 10) := by
  refine ⟨?_, ?_, ?_, ?_⟩
  · simp only [selectAgents]
    rw [List.length_take]
    exact Nat.min_le_left _ _
  · intro hr a ham ha
    have haru : a ∈ (m.map Prod.snd).filter (fun a => a.status == .running) :=
      List.mem_filter.mpr ⟨ham, by rw [ha]; rfl⟩
    simp only [selectAgents]
    rw [List.take_append_eq_append_take, List.take_of_length_le hr]
    exact List.mem_append_left _ haru
  · intro hr
    simp only [selectAgents]
    exact select_take_eq _ _ hr
  · intro hr
    simp only [selectAgents]
    rw [List.take_append_eq_append_take]
    rw [show (10 - ((m.map Prod.snd).filter (fun a => a.status == .running)).length) = 0 from
      Nat.sub_eq_zero_of_le (le_of_lt hr)]
    rw [List.take_zero, List.append_nil]

def c8wAgent : ActiveAgent :=
  { id := "solo", type := "explore", status := .running, startTime := 0 }

def c8wDone1 : ActiveAgent :=
  { id := "old1", type := "explore", status := .completed, startTime := 1, endTime := some 3 }

def c8wDone2 : ActiveAgent :=
  { id := "old2", type := "explore", status := .completed, startTime := 2, endTime := some 4 }

def c8wMap2 : AgentMap :=
  [(c8wAgent.id, c8wAgent), (c8wDone1.id, c8wDone1), (c8wDone2.id, c8wDone2)]

/-- Witness for the amended C8: the single running job is selected, and on a
map with one running and two completed jobs the selection equals the running
jobs followed by the final segment of the completed jobs. -/
theorem selection_cap_amended_witness :
    c8wAgent ∈ selectAgents [(c8wAgent.id, c8wAgent)]
    ∧ selectAgents c8wMap2
        = (c8wMap2.map Prod.snd).filter (fun a => a.status == .running)
          ++ ((c8wMap2.map Prod.snd).filter (fun a => a.status == .completed)).drop
              (((c8wMap2.map Prod.snd).filter (fun a => a.status == .completed)).length
                - (10 - ((c8wMap2.map Prod.snd).filter (fun a => a.status == .running)).length)) := by
  constructor
  · exact (selection_cap_amended [(c8wAgent.id, c8wAgent)]).2.1 (by decide) c8wAgent (by decide) rfl
  · exact (selection_cap_amended c8wMap2).2.2.1 (by decide)

/-! ## splitNl lemmas for the line readers -/

theorem splitNl_cons (c : Char) (rest : List Char) :
    splitNl (c :: rest) = if c = '\n' then [] :: splitNl rest
      else match splitNl rest with
        | [] => [[c]]
        | l :: ls => (c :: l) :: ls := rfl

theorem splitNl_length_le (a b : List Char) :
    (splitNl b).length ≤ (splitNl (a ++ b)).length := by
  induction a with
  | nil => simp
  | cons c a' ih =>
    rw [List.cons_append, splitNl_cons]
    by_cases hc : c = '\n'
    · rw [if_pos hc]
      exact Nat.le_succ_of_le ih
    · rw [if_neg hc]
      rcases hS : splitNl (a' ++ b) with _ | ⟨l, ls⟩
      · exact absurd hS (splitNl_ne_nil _)
      · rw [hS] at ih
        simpa using ih

theorem splitNl_tail_suffix (a b : List Char) :
    List.IsSuffix (splitNl b).tail (splitNl (a ++ b)) := by
  induction a with
  | nil => simpa using List.tail_suffix (splitNl b)
  | cons c a' ih =>
    rw [List.cons_append, splitNl_cons]
    by_cases hc : c = '\n'
    · rw [if_pos hc]
      exact ih.trans (List.suffix_cons _ _)
    · rw [if_neg hc]
      rcases hS : splitNl (a' ++ b) with _ | ⟨l, ls⟩
      · exact absurd hS (splitNl_ne_nil _)
      · rw [hS] at ih
        rcases List.suffix_cons_iff.mp ih with heq | hsuf
        · exfalso
          have hlen := splitNl_length_le a' b
          rw [hS] at hlen
          have h2 : (l :: ls).length = (splitNl b).tail.length := by rw [← heq]
          rw [List.length_tail] at h2
          have h3 : 1 ≤ (splitNl b).length := List.length_pos.mpr (splitNl_ne_nil b)
          simp only [List.length_cons] at hlen h2
          omega
        · exact hsuf.trans (List.suffix_cons _ _)

theorem getLastD_eq_getLast (l : List (List Char)) (h : l ≠ []) (d : List Char) :
    l.getLastD d = l.getLast h := by
  cases l with
  | nil => exact absurd rfl h
  | cons a t => rfl

/-! ## Claim C6: tail reading of oversized files -/

/-- Claim C6: for a file strictly larger than the budget, the tail reader
returns exactly the newline split of the final `budget` bytes with the first
fragment discarded; every returned line is a complete line of the file (the
result is a suffix of the full file's line split, so a truncated partial
line is never parsed); and a missing file yields the default empty result
rather than an exception. -/
theorem tail_read_discards_partial_line (f : List Char) (budget : Nat)
    (h : budget < f.length) (decode : List Char → Option TranscriptEntry) (now : Int) :
    readTailLinesModel f budget = (splitNl (f.drop (f.length - budget))).tail
    ∧ List.IsSuffix (readTailLinesModel f budget) (splitNl f)
    ∧ parseTranscriptModel decode now none = emptyTranscriptData := by
  have h0 : 0 < f.length - budget := Nat.sub_pos_of_lt h
  have htail : readTailLinesModel f budget = (splitNl (f.drop (f.length - budget))).tail := by
    unfold readTailLinesModel
    rw [if_pos ⟨h0, splitNl_ne_nil _⟩]
  refine ⟨htail, ?_, rfl⟩
  rw [htail]
  have hsuf := splitNl_tail_suffix (f.take (f.length - budget)) (f.drop (f.length - budget))
  rwa [List.take_append_drop] at hsuf

def c6wFile : List Char := "ab\ncd".toList

/-- Witness for C6 at a concrete oversized file. -/
theorem tail_read_discards_partial_line_witness :
    readTailLinesModel c6wFile 3 = (splitNl (c6wFile.drop (c6wFile.length - 3))).tail
    ∧ List.IsSuffix (readTailLinesModel c6wFile 3) (splitNl c6wFile)
    ∧ parseTranscriptModel (fun _ => none) 0 none = emptyTranscriptData :=
  tail_read_discards_partial_line c6wFile 3 (by decide) (fun _ => none) 0

/-! ## Claim C7: stream / tail equivalence for small files -/

/-- Claim C7: for a file whose size is at or under the byte budget, the
full-stream path and the tail-read path reconstruct identical state: the
tail read starts at offset 0, keeps all fragments, and differs from the
stream's line list by at most one trailing empty fragment, which the blank
filter skips. -/
theorem stream_tail_equivalence (decode : List Char → Option TranscriptEntry) (now : Int)
    (f : List Char) (budget : Nat) (h : f.length ≤ budget) :
    parseViaStream decode now f = parseViaTail decode now f budget := by
  have htail : readTailLinesModel f budget = splitNl f := by
    unfold readTailLinesModel
    rw [Nat.sub_eq_zero_of_le h]
    simp
  unfold parseViaStream parseViaTail
  rw [htail]
  unfold streamLinesModel
  by_cases hlast : (splitNl f).getLastD [] = []
  · rw [if_pos hlast]
    have hne := splitNl_ne_nil f
    have hgl : (splitNl f).getLast hne = [] := by
      rw [← getLastD_eq_getLast _ hne []]
      exact hlast
    have hsplit : splitNl f = (splitNl f).dropLast ++ [[]] := by
      conv_lhs => rw [← List.dropLast_append_getLast hne, hgl]
    have hfold : foldLines decode now (splitNl f) initialParseState
        = foldLines decode now (splitNl f).dropLast initialParseState := by
      conv_lhs => rw [hsplit]
      unfold foldLines
      rw [List.foldl_append]
      rfl
    rw [hfold]
  · rw [if_neg hlast]

def c7wFile : List Char := "x\n".toList

/-- Witness for C7 at a concrete small file. -/
theorem stream_tail_equivalence_witness :
    parseViaStream (fun _ => none) 0 c7wFile = parseViaTail (fun _ => none) 0 c7wFile 10 :=
  stream_tail_equivalence (fun _ => none) 0 c7wFile 10 (by decide)

/-! ## Claim C5: status and identifier invariants -/

/-- Ids of jobs a block would launch (the `Task`/`proxy_Task` branch guard). -/
def blockLaunchIds (b : ContentBlock) : List String :=
  match b.id, b.name with
  | some bid, some bname =>
    if b.type = toolUseType ∧ bid ≠ "" ∧ bname ≠ ""
        ∧ (bname = taskToolName ∨ bname = proxyTaskToolName) then [bid] else []
  | _, _ => []

/-- Ids of jobs an entry would launch. -/
def entryLaunchIds (e : TranscriptEntry) : List String :=
  match e.content with
  | none => []
  | some bs => (bs.map blockLaunchIds).flatten

/-- Ids of jobs a window of entries would launch. -/
def eventsLaunchIds (evs : List TranscriptEntry) : List String :=
  (evs.map entryLaunchIds).flatten

/-- Every map entry stores the agent under its own identifier. -/
def IdConsistent (m : AgentMap) : Prop := ∀ p ∈ m, p.2.id = p.1

/-- A map evolution step that at each key either leaves the binding untouched
or replaces it with a completed agent (never deleting, never reopening), and
preserves identifier consistency. -/
def StepOk (m m' : AgentMap) : Prop :=
  (∀ j, aGet j m' = aGet j m
      ∨ ∃ a2, aGet j m' = some a2 ∧ a2.status = .completed ∧ aGet j m ≠ none)
  ∧ (IdConsistent m → IdConsistent m')

theorem stepOk_refl (m : AgentMap) : StepOk m m :=
  ⟨fun _ => Or.inl rfl, fun h => h⟩

theorem stepOk_trans {m1 m2 m3 : AgentMap} (h12 : StepOk m1 m2) (h23 : StepOk m2 m3) :
    StepOk m1 m3 := by
  refine ⟨fun j => ?_, fun h => h23.2 (h12.2 h)⟩
  rcases h23.1 j with h | ⟨a2, ha2, hc2, hne2⟩
  · rw [h]; exact h12.1 j
  · refine Or.inr ⟨a2, ha2, hc2, ?_⟩
    rcases h12.1 j with h' | ⟨a1, ha1, hj1, hj2⟩
    · rw [← h']; exact hne2
    · exact hj2

theorem IdConsistent_aSet (m : AgentMap) (k : String) (v : ActiveAgent)
    (h : IdConsistent m) (hv : v.id = k) : IdConsistent (aSet k v m) := by
  induction m with
  | nil =>
    intro p hp
    rw [List.mem_singleton.mp hp]
    exact hv
  | cons q rest ih =>
    by_cases hq : q.1 = k
    · rw [aSet, if_pos hq]
      intro p hp
      rcases List.mem_cons.mp hp with h1 | h2
      · rw [h1]; exact hv
      · exact h p (List.mem_cons_of_mem q h2)
    · rw [aSet, if_neg hq]
      intro p hp
      rcases List.mem_cons.mp hp with h1 | h2
      · rw [h1]; exact h q (List.mem_cons_self q rest)
      · exact ih (fun p' hp' => h p' (List.mem_cons_of_mem q hp')) p h2

theorem IdConsistent_aDelete (m : AgentMap) (k : String) (h : IdConsistent m) :
    IdConsistent (aDelete k m) :=
  fun p hp => h p (List.mem_of_mem_filter hp)

theorem IdConsistent_insertAgent (m : AgentMap) (k : String) (a : ActiveAgent)
    (h : IdConsistent m) (ha : a.id = k) :
    IdConsistent (insertAgent maxAgentMapSize m k a) := by
  unfold insertAgent
  by_cases hlen : maxAgentMapSize ≤ m.length
  · rw [if_pos hlen]
    rcases findOldestCompleted m with _ | victim
    · exact IdConsistent_aSet m k a h ha
    · exact IdConsistent_aSet _ k a (IdConsistent_aDelete m victim h) ha
  · rw [if_neg hlen]
    exact IdConsistent_aSet m k a h ha

theorem StepOk_aSet_complete (m : AgentMap) (tu : String) (ag : ActiveAgent) (ts : Int)
    (hag : aGet tu m = some ag) : StepOk m (aSet tu (completeAgent ts ag) m) := by
  constructor
  · intro j
    by_cases hj : j = tu
    · subst hj
      refine Or.inr ⟨completeAgent ts ag, aGet_aSet_self _ _ _, rfl, ?_⟩
      rw [hag]
      exact fun hx => Option.noConfusion hx
    · exact Or.inl (aGet_aSet_ne _ _ _ _ hj)
  · intro hic
    exact IdConsistent_aSet m tu _ hic (hic (tu, ag) (aGet_mem tu m ag hag))

/-- The direct-result half of the `tool_result` branch, named for proofs. -/
def directResultStep (ts : Int) (tuid : String) (b : ContentBlock) (st : ParseState) : ParseState :=
  match aGet tuid st.agentMap with
  | some agent =>
    if isBackgroundLaunchContent b.content then
      if contentTruthy b.content then
        match b.content with
        | some bc =>
          match extractBackgroundAgentId bc with
          | some bgId => { st with bgMap := aSet bgId tuid st.bgMap }
          | none => st
        | none => st
      else st
    else
      { st with agentMap := aSet tuid (completeAgent ts agent) st.agentMap }
  | none => st

/-- The completion-report half of the `tool_result` branch, named for proofs. -/
def taskOutputStep (ts : Int) (b : ContentBlock) (st1 : ParseState) : ParseState :=
  if contentTruthy b.content then
    match b.content with
    | some bc =>
      match parseTaskOutputResult bc with
      | some pr =>
        if pr.2 = completedStatusText then
          match aGet pr.1 st1.bgMap with
          | some origTuid =>
            match aGet origTuid st1.agentMap with
            | some bgAgent =>
              if bgAgent.status = .running then
                { st1 with agentMap := aSet origTuid (completeAgent ts bgAgent) st1.agentMap }
              else st1
            | none => st1
          | none => st1
        else st1
      | none => st1
    | none => st1
  else st1

theorem toolResultStep_eq (ts : Int) (b : ContentBlock) (st : ParseState) :
    toolResultStep ts b st =
      match b.tool_use_id with
      | some tuid =>
        if b.type = toolResultType ∧ tuid ≠ "" then
          taskOutputStep ts b (directResultStep ts tuid b st)
        else st
      | none => st := by
  obtain ⟨btype, bid2, bname, binput, btuid, bcontent⟩ := b
  cases btuid <;> rfl

theorem directResultStep_StepOk (ts : Int) (tuid : String) (b : ContentBlock) (st : ParseState) :
    StepOk st.agentMap (directResultStep ts tuid b st).agentMap := by
  unfold directResultStep
  repeat' split
  all_goals first
    | exact stepOk_refl _
    | exact StepOk_aSet_complete _ _ _ _ (by assumption)

theorem taskOutputStep_StepOk (ts : Int) (b : ContentBlock) (st1 : ParseState) :
    StepOk st1.agentMap (taskOutputStep ts b st1).agentMap := by
  unfold taskOutputStep
  repeat' split
  all_goals first
    | exact stepOk_refl _
    | exact StepOk_aSet_complete _ _ _ _ (by assumption)

theorem toolResultStep_StepOk (ts : Int) (b : ContentBlock) (st : ParseState) :
    StepOk st.agentMap (toolResultStep ts b st).agentMap := by
  rw [toolResultStep_eq]
  repeat' split
  all_goals first
    | exact stepOk_refl _
    | exact stepOk_trans (directResultStep_StepOk ts _ b st) (taskOutputStep_StepOk ts b _)

theorem toolUseStep_cases (ts : Int) (b : ContentBlock) (st : ParseState) :
    (toolUseStep ts b st).agentMap = st.agentMap
    ∨ ∃ bid, (toolUseStep ts b st).agentMap
          = insertAgent maxAgentMapSize st.agentMap bid (mkLaunchAgent ts bid b.input)
        ∧ blockLaunchIds b = [bid] := by
  unfold toolUseStep
  repeat' split
  all_goals first
    | exact Or.inl rfl
    | (refine Or.inr ⟨_, rfl, ?_⟩
       simp_all [blockLaunchIds])

theorem insertAgent_aGet_cases (m : AgentMap) (k : String) (a : ActiveAgent) (j : String)
    (hjk : j ≠ k) :
    aGet j (insertAgent maxAgentMapSize m k a) = aGet j m
    ∨ aGet j (insertAgent maxAgentMapSize m k a) = none := by
  unfold insertAgent
  rw [aGet_aSet_ne _ _ _ _ hjk]
  by_cases hlen : maxAgentMapSize ≤ m.length
  · rw [if_pos hlen]
    rcases findOldestCompleted m with _ | victim
    · exact Or.inl rfl
    · by_cases hjv : j = victim
      · subst hjv
        refine Or.inr ?_
        rw [aGet_eq_none_iff]
        intro hc
        exact ((mem_aKeys_aDelete j j m).mp hc).2 rfl
      · exact Or.inl (aGet_aDelete_ne _ _ _ hjv)
  · rw [if_neg hlen]
    exact Or.inl rfl

/-- Lookup at `j` is either absent or a completed job. -/
def NCmap (j : String) (m : AgentMap) : Prop :=
  aGet j m = none ∨ ∃ a, aGet j m = some a ∧ a.status = .completed

theorem toolUseStep_NC (ts : Int) (b : ContentBlock) (st : ParseState) (j : String)
    (hj : j ∉ blockLaunchIds b) (h : NCmap j st.agentMap) :
    NCmap j (toolUseStep ts b st).agentMap := by
  rcases toolUseStep_cases ts b st with hs | ⟨bid, hins, hbl⟩
  · unfold NCmap at h ⊢
    rw [hs]
    exact h
  · have hjb : j ≠ bid := fun he => hj (hbl ▸ List.mem_singleton.mpr he)
    unfold NCmap at h ⊢
    rw [hins]
    rcases insertAgent_aGet_cases st.agentMap bid (mkLaunchAgent ts bid b.input) j hjb with h' | h'
    · rw [h']; exact h
    · exact Or.inl h'

theorem toolUseStep_none (ts : Int) (b : ContentBlock) (st : ParseState) (j : String)
    (hj : j ∉ blockLaunchIds b) (h : aGet j st.agentMap = none) :
    aGet j (toolUseStep ts b st).agentMap = none := by
  rcases toolUseStep_cases ts b st with hs | ⟨bid, hins, hbl⟩
  · rw [hs]; exact h
  · have hjb : j ≠ bid := fun he => hj (hbl ▸ List.mem_singleton.mpr he)
    rw [hins]
    rcases insertAgent_aGet_cases st.agentMap bid (mkLaunchAgent ts bid b.input) j hjb with h' | h'
    · rw [h']; exact h
    · exact h'

theorem toolResultStep_none (ts : Int) (b : ContentBlock) (st : ParseState) (j : String)
    (h : aGet j st.agentMap = none) :
    aGet j (toolResultStep ts b st).agentMap = none := by
  rcases (toolResultStep_StepOk ts b st).1 j with h' | ⟨a2, ha2, hc2, hne⟩
  · rw [h']; exact h
  · exact absurd h hne

theorem processBlock_NC (ts : Int) (st : ParseState) (b : ContentBlock) (j : String)
    (hj : j ∉ blockLaunchIds b) (h : NCmap j st.agentMap) :
    NCmap j (processBlock ts st b).agentMap := by
  unfold processBlock
  have h1 := toolUseStep_NC ts b st j hj h
  rcases (toolResultStep_StepOk ts b (toolUseStep ts b st)).1 j with h' | ⟨a2, ha2, hc2, hne⟩
  · unfold NCmap at h1 ⊢
    rw [h']
    exact h1
  · exact Or.inr ⟨a2, ha2, hc2⟩

theorem processBlock_none (ts : Int) (st : ParseState) (b : ContentBlock) (j : String)
    (hj : j ∉ blockLaunchIds b) (h : aGet j st.agentMap = none) :
    aGet j (processBlock ts st b).agentMap = none :=
  toolResultStep_none ts b _ j (toolUseStep_none ts b st j hj h)

theorem processBlock_IdConsistent (ts : Int) (st : ParseState) (b : ContentBlock)
    (h : IdConsistent st.agentMap) : IdConsistent (processBlock ts st b).agentMap := by
  unfold processBlock
  apply (toolResultStep_StepOk ts b _).2
  rcases toolUseStep_cases ts b st with hs | ⟨bid, hins, hbl⟩
  · rw [hs]; exact h
  · rw [hins]
    exact IdConsistent_insertAgent st.agentMap bid _ h rfl

theorem blocksFold_NC (ts : Int) (blocks : List ContentBlock) (st : ParseState) (j : String)
    (hj : ∀ b ∈ blocks, j ∉ blockLaunchIds b) (h : NCmap j st.agentMap) :
    NCmap j (blocks.foldl (processBlock ts) st).agentMap := by
  induction blocks generalizing st with
  | nil => exact h
  | cons b bs ih =>
    rw [List.foldl_cons]
    exact ih _ (fun b' hb' => hj b' (List.mem_cons_of_mem b hb'))
      (processBlock_NC ts st b j (hj b (List.mem_cons_self b bs)) h)

theorem blocksFold_none (ts : Int) (blocks : List ContentBlock) (st : ParseState) (j : String)
    (hj : ∀ b ∈ blocks, j ∉ blockLaunchIds b) (h : aGet j st.agentMap = none) :
    aGet j (blocks.foldl (processBlock ts) st).agentMap = none := by
  induction blocks generalizing st with
  | nil => exact h
  | cons b bs ih =>
    rw [List.foldl_cons]
    exact ih _ (fun b' hb' => hj b' (List.mem_cons_of_mem b hb'))
      (processBlock_none ts st b j (hj b (List.mem_cons_self b bs)) h)

theorem blocksFold_IdConsistent (ts : Int) (blocks : List ContentBlock) (st : ParseState)
    (h : IdConsistent st.agentMap) :
    IdConsistent (blocks.foldl (processBlock ts) st).agentMap := by
  induction blocks generalizing st with
  | nil => exact h
  | cons b bs ih =>
    rw [List.foldl_cons]
    exact ih _ (processBlock_IdConsistent ts st b h)

theorem processEntry_NC (now : Int) (e : TranscriptEntry) (st : ParseState) (j : String)
    (hj : j ∉ entryLaunchIds e) (h : NCmap j st.agentMap) :
    NCmap j (processEntry now e st).agentMap := by
  unfold processEntry
  rcases hc : e.content with _ | blocks
  · split <;> exact h
  · have hj' : ∀ b ∈ blocks, j ∉ blockLaunchIds b := by
      intro b hb hmem
      apply hj
      unfold entryLaunchIds
      rw [hc]
      exact List.mem_flatten.mpr ⟨blockLaunchIds b, List.mem_map_of_mem _ hb, hmem⟩
    split <;> exact blocksFold_NC _ blocks _ j hj' h

theorem processEntry_none (now : Int) (e : TranscriptEntry) (st : ParseState) (j : String)
    (hj : j ∉ entryLaunchIds e) (h : aGet j st.agentMap = none) :
    aGet j (processEntry now e st).agentMap = none := by
  unfold processEntry
  rcases hc : e.content with _ | blocks
  · split <;> exact h
  · have hj' : ∀ b ∈ blocks, j ∉ blockLaunchIds b := by
      intro b hb hmem
      apply hj
      unfold entryLaunchIds
      rw [hc]
      exact List.mem_flatten.mpr ⟨blockLaunchIds b, List.mem_map_of_mem _ hb, hmem⟩
    split <;> exact blocksFold_none _ blocks _ j hj' h

theorem processEntry_IdConsistent (now : Int) (e : TranscriptEntry) (st : ParseState)
    (h : IdConsistent st.agentMap) : IdConsistent (processEntry now e st).agentMap := by
  unfold processEntry
  rcases hc : e.content with _ | blocks
  · split <;> exact h
  · split <;> exact blocksFold_IdConsistent _ blocks _ h

theorem eventsLaunchIds_cons (e : TranscriptEntry) (evs : List TranscriptEntry) :
    eventsLaunchIds (e :: evs) = entryLaunchIds e ++ eventsLaunchIds evs := by
  unfold eventsLaunchIds
  rw [List.map_cons, List.flatten_cons]

theorem eventsLaunchIds_append (l1 l2 : List TranscriptEntry) :
    eventsLaunchIds (l1 ++ l2) = eventsLaunchIds l1 ++ eventsLaunchIds l2 := by
  unfold eventsLaunchIds
  rw [List.map_append, List.flatten_append]

theorem foldEntries_NC (now : Int) (evs : List TranscriptEntry) (st : ParseState) (j : String)
    (hj : j ∉ eventsLaunchIds evs) (h : NCmap j st.agentMap) :
    NCmap j (foldEntries now evs st).agentMap := by
  induction evs generalizing st with
  | nil => exact h
  | cons e evs ih =>
    rw [eventsLaunchIds_cons] at hj
    have hj1 : j ∉ entryLaunchIds e := fun hx => hj (List.mem_append.mpr (Or.inl hx))
    have hj2 : j ∉ eventsLaunchIds evs := fun hx => hj (List.mem_append.mpr (Or.inr hx))
    exact ih _ hj2 (processEntry_NC now e st j hj1 h)

theorem foldEntries_none (now : Int) (evs : List TranscriptEntry) (st : ParseState) (j : String)
    (hj : j ∉ eventsLaunchIds evs) (h : aGet j st.agentMap = none) :
    aGet j (foldEntries now evs st).agentMap = none := by
  induction evs generalizing st with
  | nil => exact h
  | cons e evs ih =>
    rw [eventsLaunchIds_cons] at hj
    have hj1 : j ∉ entryLaunchIds e := fun hx => hj (List.mem_append.mpr (Or.inl hx))
    have hj2 : j ∉ eventsLaunchIds evs := fun hx => hj (List.mem_append.mpr (Or.inr hx))
    exact ih _ hj2 (processEntry_none now e st j hj1 h)

theorem foldEntries_IdConsistent (now : Int) (evs : List TranscriptEntry) (st : ParseState)
    (h : IdConsistent st.agentMap) : IdConsistent (foldEntries now evs st).agentMap := by
  induction evs generalizing st with
  | nil => exact h
  | cons e evs ih =>
    exact ih _ (processEntry_IdConsistent now e st h)

/-- Claim C5: over any event window whose launch invocation ids are unique
(the data-model invariant "identifier unique within the window"), a job found
completed after any prefix of the window is, after the whole window, either
evicted or still completed — never back to running; and every tracked job
always sits in the map under its own identifier, which therefore never
changes after assignment. -/
theorem completed_never_reverts (now : Int) (evs1 evs2 : List TranscriptEntry)
    (hnd : (eventsLaunchIds (evs1 ++ evs2)).Nodup)
    (k : String) (a : ActiveAgent)
    (hmid : aGet k (foldEntries now evs1 initialParseState).agentMap = some a)
    (hc : a.status = .completed) :
    (aGet k (foldEntries now (evs1 ++ evs2) initialParseState).agentMap = none
      ∨ ∃ b, aGet k (foldEntries now (evs1 ++ evs2) initialParseState).agentMap = some b
          ∧ b.status = .completed)
    ∧ ∀ p ∈ (foldEntries now (evs1 ++ evs2) initialParseState).agentMap, p.2.id = p.1 := by
  have happ : foldEntries now (evs1 ++ evs2) initialParseState
      = foldEntries now evs2 (foldEntries now evs1 initialParseState) := by
    unfold foldEntries
    rw [List.foldl_append]
  constructor
  · rw [happ]
    have hin : k ∈ eventsLaunchIds evs1 := by
      by_contra hnot
      have hnone := foldEntries_none now evs1 initialParseState k hnot rfl
      rw [hnone] at hmid
      exact Option.noConfusion hmid
    have hdisj : k ∉ eventsLaunchIds evs2 := by
      rw [eventsLaunchIds_append] at hnd
      rcases List.nodup_append.mp hnd with ⟨h1, h2, hdis⟩
      exact fun h2x => hdis hin h2x
    exact foldEntries_NC now evs2 _ k hdisj (Or.inr ⟨a, hmid, hc⟩)
  · exact foldEntries_IdConsistent now (evs1 ++ evs2) initialParseState
      (fun p hp => absurd hp (List.not_mem_nil p))

def c5LaunchId1 : String := "s1"

def c5LaunchId2 : String := "s2"

def c5Launch1 : TranscriptEntry :=
  { timestamp := some 10
    content := some [{ type := toolUseType, id := some c5LaunchId1, name := some taskToolName }] }

def c5Result1 : TranscriptEntry :=
  { timestamp := some 20
    content := some [{ type := toolResultType, tool_use_id := some c5LaunchId1 }] }

def c5Launch2 : TranscriptEntry :=
  { timestamp := some 30
    content := some [{ type := toolUseType, id := some c5LaunchId2, name := some taskToolName }] }

def c5DoneAgent : ActiveAgent :=
  { id := "s1", type := "unknown", status := .completed, startTime := 10, endTime := some 20 }

/-- Witness for C5 at a concrete window: `s1` is launched and completed, then
`s2` is launched; `s1` stays completed (or evicted) and ids stay keys. -/
theorem completed_never_reverts_witness :
    (aGet c5LaunchId1
        (foldEntries 0 ([c5Launch1, c5Result1] ++ [c5Launch2]) initialParseState).agentMap = none
      ∨ ∃ b, aGet c5LaunchId1
            (foldEntries 0 ([c5Launch1, c5Result1] ++ [c5Launch2]) initialParseState).agentMap
            = some b
          ∧ b.status = .completed)
    ∧ ∀ p ∈ (foldEntries 0 ([c5Launch1, c5Result1] ++ [c5Launch2]) initialParseState).agentMap,
        p.2.id = p.1 :=
  completed_never_reverts 0 [c5Launch1, c5Result1] [c5Launch2] (by decide)
    c5LaunchId1 c5DoneAgent (by decide) rfl
